import Mathlib

/-!
Verification of the `skel` program (Go, files `main.go` and the v1.1 variant
with zip support). Strings of the Go program are modelled as `List Char`.
The substitution engine `findReplace`, the regex scan of `\$\x7b(.+)\x7d`,
the walk callback `walkFunc` and the control flow of `main` are embedded as
executable Lean functions below.
-/

namespace Skel

/-- Boolean prefix test on character lists, mirroring how `strings.Replace`
looks for an occurrence of the pattern at the current position. -/
def isPre : List Char → List Char → Bool
  | [], _ => true
  | _ :: _, [] => false
  | a :: as, b :: bs => a == b && isPre as bs

/-- Fuel-indexed worker for `strings.Replace(s, p, v, -1)`: scan left to
right, replace every non-overlapping occurrence of `p` by `v`.  One unit of
fuel is spent per consumed character, so `s.length` fuel always suffices. -/
def replaceAllF : Nat → List Char → List Char → List Char → List Char
  | _, _, _, [] => []
  | 0, _, _, s => s
  | n + 1, p, v, c :: rest =>
    if p ≠ [] ∧ isPre p (c :: rest) then
      v ++ replaceAllF n p v (List.drop p.length (c :: rest))
    else
      c :: replaceAllF n p v rest

/-- Model of Go `strings.Replace(s, p, v, -1)` (replace all occurrences). -/
def replaceAll (p v s : List Char) : List Char := replaceAllF s.length p v s

/-- The literal text the loop body builds for a key `k` with
`fmt.Sprintf` — a dollar, an open brace, the key, a close brace. -/
def placeholder (k : List Char) : List Char := '$' :: '{' :: (k ++ ['}'])

/-- The replacement loop of `findReplace` (`for k, v := range t.KeyValues`),
run over one fixed iteration order of the map given as an association
list. -/
def findReplaceCore (kvs : List (List Char × List Char)) (src : List Char) :
    List Char :=
  kvs.foldl (fun acc kv => replaceAll (placeholder kv.1) kv.2 acc) src

/-- Index of the last close brace of `u` at position at least 1, if any.
This is where the greedy group of the regex stops: the group consumes as
much as possible and backtracks to the last close brace. -/
def lastCloseIdx (u : List Char) : Option Nat :=
  ((List.range u.length).filter
    (fun i => decide (1 ≤ i ∧ u[i]? = some '}'))).getLast?

/-- Regex match of `regexp.MustCompile` of a dollar, an open brace, a
greedy `(.+)` group and a close brace, attempted at the start of `s`.  A
dot does not match a newline, the group is greedy, so the match runs to
the last close brace before the first newline. -/
def matchAt : List Char → Option (List Char)
  | c1 :: c2 :: t =>
    if c1 = '$' ∧ c2 = '{' then
      match lastCloseIdx (t.takeWhile (fun c => c ≠ '\n')) with
      | some m =>
        some ('$' :: '{' :: ((t.takeWhile (fun c => c ≠ '\n')).take m ++ ['}']))
      | none => none
    else none
  | _ => none

/-- Go `regexp.FindString`: the leftmost match, or the empty string when
there is none. -/
def skFindString : List Char → List Char
  | [] => []
  | c :: rest =>
    match matchAt (c :: rest) with
    | some m => m
    | none => skFindString rest

/-- Insertion into the `Unsubstituted` set (a Go `map[string]bool`). -/
def addUnsub (u : List (List Char)) (x : List Char) : List (List Char) :=
  if x ∈ u then u else u ++ [x]

/-- Full model of `findReplace`: run the replacement loop in the given
iteration order, then scan the result with the regex and record the first
remaining match, if any, in the unsubstituted set.  Returns the result
string and the updated set. -/
def findReplaceU (kvs : List (List Char × List Char))
    (unsub : List (List Char)) (src : List Char) :
    List Char × List (List Char) :=
  let r := findReplaceCore kvs src
  let f := skFindString r
  (r, if f = [] then unsub else addUnsub unsub f)

/-- Strings interleaving placeholder-free literal text with placeholders of
keys drawn from `K`: every dollar sign in such a string starts a placeholder
of a key of `K`.  This is the well-placed-input hypothesis under which the
substitution loop resolves everything. -/
inductive Shaped (K : List (List Char)) : List Char → Prop where
  | nil : Shaped K []
  | lit (c : Char) (s : List Char) : c ≠ '$' → Shaped K s → Shaped K (c :: s)
  | ph (k : List Char) (s : List Char) :
      k ∈ K → Shaped K s → Shaped K (placeholder k ++ s)

/-- Keys that contain neither a dollar sign nor a close brace. -/
def GoodKeys (K : List (List Char)) : Prop :=
  ∀ k ∈ K, '$' ∉ k ∧ '}' ∉ k

/-- The first components of an association list: the keys of the map in
their iteration order. -/
def keysOf (kvs : List (List Char × List Char)) : List (List Char) :=
  kvs.map Prod.fst

/-- Abstract path primitives of the Go standard library used by
`walkFunc` (`filepath.Clean` and the three-argument `filepath.Join`).
They are external collaborators, so the walk theorems quantify over
them. -/
structure PathOps where
  clean : List Char → List Char
  join3 : List Char → List Char → List Char → List Char

/-- The fields of the `Skeleton` struct that `walkFunc` reads. -/
structure Skeleton where
  location : List Char
  outdir : List Char
  outDirBase : List Char
  dryrun : Bool
  keyValues : List (List Char × List Char)

/-- A filesystem mutation attempted by `walkFunc`, with the success of the
operation recorded; the Go code discards the returned errors of
`os.MkdirAll`, `os.Create` and `ioutil.WriteFile`, so its control flow
never consults the flag. -/
inductive FsEffect where
  | mkdirAll (path : List Char) (ok : Bool)
  | create (path : List Char) (ok : Bool)
  | writeFile (path : List Char) (content : List Char) (ok : Bool)
  deriving DecidableEq

/-- Observable outcome of one `walkFunc` invocation: attempted mutations,
files read, standard output lines, standard error lines, the updated
unsubstituted set, and the returned `error` value (`none` is Go `nil`). -/
structure WalkOut where
  effects : List FsEffect
  reads : List (List Char)
  logsOut : List (List Char)
  logsErr : List (List Char)
  unsub : List (List Char)
  ret : Option (List Char)
  deriving DecidableEq

/-- The verbose progress line for a directory. -/
def creatingDirMsg (p : List Char) : List Char :=
  ("Creating dir:  ".data) ++ p

/-- The verbose progress line for a file. -/
def creatingFileMsg (p : List Char) : List Char :=
  ("Creating file: ".data) ++ p

/-- The standard error line for a failed `ioutil.ReadFile`. -/
def readFailMsg (p msg : List Char) : List Char :=
  ("failed to open file ".data) ++ p ++ (": ".data) ++ msg

/-- The first lines of `walkFunc`: clean the location and the walked path,
cut the location out of the path, join with the output directory and the
per-run base directory, and substitute variables.  Returns the target path
and the updated unsubstituted set. -/
def targetpathOf (po : PathOps) (t : Skeleton) (u0 : List (List Char))
    (path : List Char) : List Char × List (List Char) :=
  let x := po.clean t.location
  let y := po.clean path
  let newp := replaceAll x [] y
  findReplaceU t.keyValues u0 (po.join3 t.outdir t.outDirBase newp)

/-- Model of `walkFunc`.  `info` is `none` when the walker hands the
callback a nil `os.FileInfo`; the code calls `info.IsDir()` without a nil
check, so that case is a nil dereference, modelled as `none` (a panic).
`err` is the error argument, which the code never reads.  `readResult` is
the outcome of `ioutil.ReadFile`; `mkdirOk`, `createOk` and `writeOk` are
the outcomes of the three discarded-error filesystem calls. -/
def walkFuncM (po : PathOps) (t : Skeleton) (verbose : Bool)
    (u0 : List (List Char)) (path : List Char) (info : Option Bool)
    (err : Option (List Char)) (readResult : Except (List Char) (List Char))
    (mkdirOk createOk writeOk : Bool) : Option WalkOut :=
  let tp := targetpathOf po t u0 path
  match info with
  | none => none
  | some isDir =>
    if isDir then
      if verbose then
        let tp2 := findReplaceU t.keyValues tp.2 tp.1
        some { effects := if !t.dryrun then [.mkdirAll tp.1 mkdirOk] else [],
               reads := [], logsOut := [creatingDirMsg tp2.1], logsErr := [],
               unsub := tp2.2, ret := none }
      else
        some { effects := if !t.dryrun then [.mkdirAll tp.1 mkdirOk] else [],
               reads := [], logsOut := [], logsErr := [],
               unsub := tp.2, ret := none }
    else
      match readResult with
      | .error msg =>
        some { effects := if !t.dryrun then [.create tp.1 createOk] else [],
               reads := [path],
               logsOut := if verbose then [creatingFileMsg tp.1] else [],
               logsErr := [readFailMsg path msg],
               unsub := tp.2, ret := none }
      | .ok origBytes =>
        if !t.dryrun then
          let nc := findReplaceU t.keyValues tp.2 origBytes
          some { effects := [.create tp.1 createOk,
                             .writeFile tp.1 nc.1 writeOk],
                 reads := [path],
                 logsOut := if verbose then [creatingFileMsg tp.1] else [],
                 logsErr := [], unsub := nc.2, ret := none }
        else
          some { effects := [],
                 reads := [path],
                 logsOut := if verbose then [creatingFileMsg tp.1] else [],
                 logsErr := [], unsub := tp.2, ret := none }

/-- One entry handed to the walk callback by `filepath.Walk`, together
with the filesystem outcomes of the calls made for it. -/
structure WEntry where
  path : List Char
  info : Option Bool
  err : Option (List Char)
  readResult : Except (List Char) (List Char)
  mkdirOk : Bool
  createOk : Bool
  writeOk : Bool

/-- Accumulated observations of a whole walk. -/
structure Accum where
  effects : List FsEffect
  reads : List (List Char)
  logsOut : List (List Char)
  logsErr : List (List Char)
  unsub : List (List Char)
  visited : List (List Char)

def Accum.start : Accum := ⟨[], [], [], [], [], []⟩

def Accum.step (a : Accum) (p : List Char) (o : WalkOut) : Accum :=
  ⟨a.effects ++ o.effects, a.reads ++ o.reads, a.logsOut ++ o.logsOut,
   a.logsErr ++ o.logsErr, o.unsub, a.visited ++ [p]⟩

/-- Model of `filepath.Walk` over a list of entries: each entry is handed to the
callback; a panic aborts everything (`none`), a non-nil returned error
stops the walk early, and otherwise the walk continues. -/
def walkMAux (po : PathOps) (t : Skeleton) (verbose : Bool) :
    List WEntry → Accum → Option Accum
  | [], a => some a
  | e :: rest, a =>
    match walkFuncM po t verbose a.unsub e.path e.info e.err e.readResult
        e.mkdirOk e.createOk e.writeOk with
    | none => none
    | some o =>
      match o.ret with
      | none => walkMAux po t verbose rest (a.step e.path o)
      | some _ => some (a.step e.path o)

/-- Model of `Skeleton.Walk`: run the callback over every entry starting
from empty accumulators. -/
def walkM (po : PathOps) (t : Skeleton) (verbose : Bool)
    (entries : List WEntry) : Option Accum :=
  walkMAux po t verbose entries Accum.start

/-- The stderr lines a walk must produce: one line per file entry whose
read failed. -/
def readLogsOf (entries : List WEntry) : List (List Char) :=
  entries.filterMap (fun e =>
    match e.info, e.readResult with
    | some false, Except.error m => some (readFailMsg e.path m)
    | _, _ => none)

/-- The outcomes of the external calls `main` makes, in program order:
whether `os.Open` and `Stat` succeed, whether the input is a directory,
whether `zip.OpenReader`, `ioutil.TempDir` and the per-entry extraction
loop succeed, whether `ParseSkeleton` finds `config.xml`, and whether
`os.RemoveAll` succeeds. -/
structure MainEnv where
  flagIn : List Char
  openOk : Bool
  statOk : Bool
  statIsDir : Bool
  zipOpenOk : Bool
  tempDirOk : Bool
  entriesOk : Bool
  parseOk : Bool
  removeOk : Bool
  deriving DecidableEq

/-- Outcome of `Unzip`: whether the scratch directory was created, and
whether the function returned without error.  The temp directory is
created after the zip is opened; an entry failure returns the already
created directory together with the error. -/
structure UnzipOut where
  scratchCreated : Bool
  ok : Bool
  deriving DecidableEq

def unzipM (env : MainEnv) : UnzipOut :=
  if !env.zipOpenOk then ⟨false, false⟩
  else if !env.tempDirOk then ⟨false, false⟩
  else if !env.entriesOk then ⟨true, false⟩
  else ⟨true, true⟩

/-- Final observable state of one run of `main`. -/
structure MainOut where
  exitCode : Nat
  scratchCreated : Bool
  scratchRemoved : Bool
  deriving DecidableEq

/-- Control flow of `main` in the zip-capable variant: every `os.Exit(1)`
path is a constructor of the output; `cleanup(targetFileDir)` runs only at
the very end of `main` and only when `isZip` is set.  The walk and the
interactive input influence neither the exit code nor the cleanup, so they
are omitted here. -/
def mainRun (env : MainEnv) : MainOut :=
  if env.flagIn = [] then ⟨1, false, false⟩
  else if !env.openOk then ⟨1, false, false⟩
  else if !env.statOk then ⟨1, false, false⟩
  else if env.statIsDir then
    if !env.parseOk then ⟨1, false, false⟩ else ⟨0, false, false⟩
  else
    let uz := unzipM env
    if !uz.ok then ⟨1, uz.scratchCreated, false⟩
    else if !env.parseOk then ⟨1, true, false⟩
    else if !env.removeOk then ⟨1, true, false⟩
    else ⟨0, true, true⟩

/-- Identity-like path primitives used to instantiate the quantified
`PathOps` in concrete witnesses. -/
def plainOps : PathOps :=
  ⟨fun s => s, fun a b c => a ++ b ++ c⟩

theorem isPre_append (p r : List Char) : isPre p (p ++ r) = true := by
  induction p with
  | nil => rfl
  | cons a as ih => simp [isPre, ih]

theorem replaceAllF_stable (p v : List Char) :
    ∀ (n : Nat) (s : List Char) (m : Nat), s.length ≤ n → s.length ≤ m →
      replaceAllF n p v s = replaceAllF m p v s := by
  intro n
  induction n with
  | zero =>
    intro s m h1 _
    have hs : s = [] := List.eq_nil_of_length_eq_zero (Nat.le_zero.mp h1)
    subst hs
    cases m <;> rfl
  | succ n ih =>
    intro s m h1 h2
    cases s with
    | nil => cases m <;> rfl
    | cons c rest =>
      cases m with
      | zero => simp at h2
      | succ m' =>
        simp only [replaceAllF]
        by_cases hc : p ≠ [] ∧ isPre p (c :: rest)
        · rw [if_pos hc, if_pos hc]
          have hlen : (List.drop p.length (c :: rest)).length ≤ rest.length := by
            have hp : 0 < p.length := List.length_pos.mpr hc.1
            simp only [List.length_drop, List.length_cons]
            omega
          have hrn : rest.length ≤ n := by
            simp only [List.length_cons] at h1; omega
          have hrm : rest.length ≤ m' := by
            simp only [List.length_cons] at h2; omega
          exact congrArg (v ++ ·) (ih _ _ (le_trans hlen hrn) (le_trans hlen hrm))
        · rw [if_neg hc, if_neg hc]
          have hrn : rest.length ≤ n := by
            simp only [List.length_cons] at h1; omega
          have hrm : rest.length ≤ m' := by
            simp only [List.length_cons] at h2; omega
          exact congrArg (c :: ·) (ih _ _ hrn hrm)

theorem replaceAll_nil (p v : List Char) : replaceAll p v [] = [] := rfl

theorem replaceAll_cons_neg (p v : List Char) (c : Char) (rest : List Char)
    (h : ¬ (p ≠ [] ∧ isPre p (c :: rest))) :
    replaceAll p v (c :: rest) = c :: replaceAll p v rest := by
  unfold replaceAll
  simp only [List.length_cons, replaceAllF]
  rw [if_neg h]

theorem replaceAll_cons_pos (p v : List Char) (c : Char) (rest : List Char)
    (h : p ≠ [] ∧ isPre p (c :: rest)) :
    replaceAll p v (c :: rest) =
      v ++ replaceAll p v (List.drop p.length (c :: rest)) := by
  unfold replaceAll
  simp only [List.length_cons, replaceAllF]
  rw [if_pos h]
  refine congrArg (v ++ ·) (replaceAllF_stable p v _ _ _ ?_ le_rfl)
  have hp : 0 < p.length := List.length_pos.mpr h.1
  simp only [List.length_drop, List.length_cons]
  omega

theorem replaceAll_atHead (p v rest : List Char) (hp : p ≠ []) :
    replaceAll p v (p ++ rest) = v ++ replaceAll p v rest := by
  cases p with
  | nil => exact absurd rfl hp
  | cons q qs =>
    have h : (q :: qs) ≠ [] ∧ isPre (q :: qs) (q :: (qs ++ rest)) := by
      refine ⟨by simp, ?_⟩
      have := isPre_append (q :: qs) rest
      simpa using this
    have := replaceAll_cons_pos (q :: qs) v q (qs ++ rest) h
    simp only [List.cons_append] at this ⊢
    rw [this]
    have hdrop : List.drop (q :: qs).length (q :: (qs ++ rest)) = rest := by
      have : q :: (qs ++ rest) = (q :: qs) ++ rest := by simp
      rw [this, List.drop_left]
    rw [hdrop]

theorem replaceAll_self (p v : List Char) (hp : p ≠ []) :
    replaceAll p v p = v := by
  have := replaceAll_atHead p v [] hp
  simpa [replaceAll_nil] using this

theorem isPre_head_ne (p' t : List Char) (c : Char) (hc : c ≠ '$') :
    isPre ('$' :: p') (c :: t) = false := by
  have hc' : ('$' == c) = false := beq_eq_false_iff_ne.mpr (Ne.symm hc)
  simp [isPre, hc']

theorem replaceAll_cons_ne_dollar (p' v t : List Char) (c : Char)
    (hc : c ≠ '$') :
    replaceAll ('$' :: p') v (c :: t) = c :: replaceAll ('$' :: p') v t := by
  refine replaceAll_cons_neg _ _ _ _ ?_
  intro h
  rw [isPre_head_ne p' t c hc] at h
  exact Bool.false_ne_true h.2

theorem replaceAll_chunk_no_dollar (p' v : List Char) (x s : List Char)
    (hx : ∀ c ∈ x, c ≠ '$') :
    replaceAll ('$' :: p') v (x ++ s) = x ++ replaceAll ('$' :: p') v s := by
  induction x with
  | nil => simp
  | cons c cs ih =>
    have hc : c ≠ '$' := hx c (by simp)
    rw [List.cons_append, replaceAll_cons_ne_dollar _ _ _ _ hc,
      ih (fun d hd => hx d (by simp [hd])), List.cons_append]

theorem replaceAll_no_dollar (p' v : List Char) (s : List Char)
    (hs : ∀ c ∈ s, c ≠ '$') : replaceAll ('$' :: p') v s = s := by
  have := replaceAll_chunk_no_dollar p' v s [] hs
  simpa [replaceAll_nil] using this

theorem key_close_not_pre :
    ∀ (k k' s : List Char), '}' ∉ k → '}' ∉ k' → k ≠ k' →
      isPre (k ++ ['}']) (k' ++ '}' :: s) = false := by
  intro k
  induction k with
  | nil =>
    intro k' s _ hk' hne
    cases k' with
    | nil => exact absurd rfl hne
    | cons b bs =>
      have hb : ('}' == b) = false :=
        beq_eq_false_iff_ne.mpr (fun h => hk' (by simp [← h]))
      simp [isPre, hb]
  | cons a as ih =>
    intro k' s hk hk' hne
    cases k' with
    | nil =>
      have ha : (a == '}') = false :=
        beq_eq_false_iff_ne.mpr (fun h => hk (by simp [h]))
      simp [isPre, ha]
    | cons b bs =>
      by_cases hab : a = b
      · subst hab
        have h1 : '}' ∉ as := fun h => hk (by simp [h])
        have h2 : '}' ∉ bs := fun h => hk' (by simp [h])
        have h3 : as ≠ bs := fun h => hne (by rw [h])
        simpa [isPre] using ih bs s h1 h2 h3
      · have hab' : (a == b) = false := beq_eq_false_iff_ne.mpr hab
        simp [isPre, hab']

theorem placeholder_not_pre (k k' s : List Char) (hk : '}' ∉ k)
    (hk' : '}' ∉ k') (hne : k ≠ k') :
    isPre (placeholder k) (placeholder k' ++ s) = false := by
  have h := key_close_not_pre k k' s hk hk' hne
  simpa [placeholder, isPre, List.append_assoc] using h

theorem replaceAll_skip_placeholder (k k' v s : List Char) (hk : '}' ∉ k)
    (hk' : '}' ∉ k') (hd' : '$' ∉ k') (hne : k ≠ k') :
    replaceAll (placeholder k) v (placeholder k' ++ s) =
      placeholder k' ++ replaceAll (placeholder k) v s := by
  have h0 : isPre (placeholder k) (placeholder k' ++ s) = false :=
    placeholder_not_pre k k' s hk hk' hne
  have hx : ∀ c ∈ ('{' :: (k' ++ ['}'])), c ≠ '$' := by
    intro c hc
    rcases List.mem_cons.mp hc with h | h
    · subst h; decide
    · rcases List.mem_append.mp h with h | h
      · exact fun hd => hd' (hd ▸ h)
      · have : c = '}' := List.mem_singleton.mp h
        subst this; decide
  have hstep : replaceAll (placeholder k) v (placeholder k' ++ s) =
      '$' :: replaceAll (placeholder k) v (('{' :: (k' ++ ['}'])) ++ s) := by
    refine replaceAll_cons_neg _ _ _ _ ?_
    intro hcon
    have h2 : isPre (placeholder k) (placeholder k' ++ s) = true := hcon.2
    rw [h0] at h2
    exact Bool.false_ne_true h2
  have hchunk : replaceAll (placeholder k) v (('{' :: (k' ++ ['}'])) ++ s) =
      ('{' :: (k' ++ ['}'])) ++ replaceAll (placeholder k) v s :=
    replaceAll_chunk_no_dollar ('{' :: (k ++ ['}'])) v ('{' :: (k' ++ ['}']))
      s hx
  rw [hstep, hchunk]
  simp [placeholder]

theorem Shaped.append_lits {K : List (List Char)} (v s : List Char)
    (hv : ∀ c ∈ v, c ≠ '$') (hs : Shaped K s) : Shaped K (v ++ s) := by
  induction v with
  | nil => simpa using hs
  | cons c cs ih =>
    exact Shaped.lit c (cs ++ s) (hv c (by simp))
      (ih (fun d hd => hv d (by simp [hd])))

theorem Shaped.replaceKey (k : List Char) (K' : List (List Char))
    (v s : List Char) (hgood : GoodKeys (k :: K'))
    (hv : ∀ c ∈ v, c ≠ '$') (hs : Shaped (k :: K') s) :
    Shaped K' (replaceAll (placeholder k) v s) := by
  induction hs with
  | nil => rw [replaceAll_nil]; exact Shaped.nil
  | lit c s hc _ ih =>
    have heq : replaceAll (placeholder k) v (c :: s) =
        c :: replaceAll (placeholder k) v s :=
      replaceAll_cons_ne_dollar ('{' :: (k ++ ['}'])) v s c hc
    rw [heq]
    exact Shaped.lit c _ hc ih
  | ph k'' s hk'' _ ih =>
    by_cases he : k'' = k
    · subst he
      rw [replaceAll_atHead _ _ _ (by simp [placeholder])]
      exact Shaped.append_lits v _ hv ih
    · have g1 := hgood k (by simp)
      have g2 := hgood k'' hk''
      rw [replaceAll_skip_placeholder k k'' v s g1.2 g2.2 g2.1
        (fun h => he h.symm)]
      refine Shaped.ph k'' _ ?_ ih
      rcases List.mem_cons.mp hk'' with h | h
      · exact absurd h he
      · exact h

theorem shaped_nil_no_dollar {s : List Char} (hs : Shaped [] s) :
    ∀ c ∈ s, c ≠ '$' := by
  induction hs with
  | nil => simp
  | lit c s hc _ ih =>
    intro d hd
    rcases List.mem_cons.mp hd with h | h
    · exact h ▸ hc
    · exact ih d h
  | ph k _ hk _ _ => exact absurd hk (List.not_mem_nil k)

theorem findReplaceCore_cons (kv : List Char × List Char)
    (rest : List (List Char × List Char)) (s : List Char) :
    findReplaceCore (kv :: rest) s =
      findReplaceCore rest (replaceAll (placeholder kv.1) kv.2 s) := rfl

theorem findReplaceCore_no_dollar :
    ∀ (kvs : List (List Char × List Char)) (s : List Char),
      GoodKeys (keysOf kvs) → (∀ p ∈ kvs, ∀ c ∈ p.2, c ≠ '$') →
      Shaped (keysOf kvs) s → ∀ c ∈ findReplaceCore kvs s, c ≠ '$' := by
  intro kvs
  induction kvs with
  | nil =>
    intro s _ _ hs
    simpa [findReplaceCore] using shaped_nil_no_dollar hs
  | cons kv rest ih =>
    intro s hgood hv hs
    rw [findReplaceCore_cons]
    have hg : GoodKeys (kv.1 :: keysOf rest) := hgood
    refine ih _ (fun k hk => hg k (List.mem_cons_of_mem _ hk))
      (fun p hp => hv p (List.mem_cons_of_mem _ hp)) ?_
    exact Shaped.replaceKey kv.1 (keysOf rest) kv.2 s hg
      (hv kv (by simp)) hs

theorem skFindString_no_dollar (s : List Char)
    (hs : ∀ c ∈ s, c ≠ '$') : skFindString s = [] := by
  induction s with
  | nil => rfl
  | cons c rest ih =>
    have hc : c ≠ '$' := hs c (by simp)
    have hm : matchAt (c :: rest) = none := by
      cases rest with
      | nil => rfl
      | cons c2 t =>
        simp only [matchAt]
        rw [if_neg (fun h => hc h.1)]
    simp only [skFindString, hm]
    exact ih (fun d hd => hs d (by simp [hd]))

theorem findReplaceCore_of_no_dollar :
    ∀ (kvs : List (List Char × List Char)) (s : List Char),
      (∀ c ∈ s, c ≠ '$') → findReplaceCore kvs s = s := by
  intro kvs
  induction kvs with
  | nil => intro s _; rfl
  | cons kv rest ih =>
    intro s hs
    rw [findReplaceCore_cons]
    have : replaceAll (placeholder kv.1) kv.2 s = s :=
      replaceAll_no_dollar ('{' :: (kv.1 ++ ['}'])) kv.2 s hs
    rw [this]
    exact ih s hs

theorem takeWhile_all (q : Char → Bool) :
    ∀ (t : List Char), (∀ c ∈ t, q c = true) → t.takeWhile q = t := by
  intro t
  induction t with
  | nil => intro _; rfl
  | cons c rest ih =>
    intro h
    rw [List.takeWhile_cons_of_pos (h c (by simp))]
    rw [ih (fun d hd => h d (by simp [hd]))]

theorem filter_range_getLast (p : Nat → Bool) (n : Nat) (hn : 0 < n)
    (hp : p (n - 1) = true) :
    ((List.range n).filter p).getLast? = some (n - 1) := by
  cases n with
  | zero => omega
  | succ n' =>
    have hp' : p n' = true := by simpa using hp
    rw [List.range_succ, List.filter_append]
    simp [hp', List.getLast?_concat]

theorem skFindString_of_matchAt (c : Char) (rest m : List Char)
    (h : matchAt (c :: rest) = some m) : skFindString (c :: rest) = m := by
  simp only [skFindString]
  rw [h]

/-- The greedy scan on two adjacent placeholders: the regex match runs from
the first dollar to the last close brace, so both placeholders are taken
together as one single match. -/

theorem skFindString_adjacent (k1 k2 : List Char) (h1 : '\n' ∉ k1)
    (h2 : '\n' ∉ k2) :
    skFindString (placeholder k1 ++ placeholder k2) =
      placeholder k1 ++ placeholder k2 := by
  have ht : (k1 ++ ['}']) ++ placeholder k2 =
      (k1 ++ '}' :: '$' :: '{' :: k2) ++ ['}'] := by
    simp [placeholder]
  have htw : ((k1 ++ '}' :: '$' :: '{' :: k2) ++ ['}']).takeWhile
      (fun c => decide (c ≠ '\n')) = (k1 ++ '}' :: '$' :: '{' :: k2) ++ ['}'] := by
    refine takeWhile_all _ _ ?_
    intro c hc
    simp only [decide_eq_true_eq]
    rcases List.mem_append.mp hc with h | h
    · rcases List.mem_append.mp h with h | h
      · exact fun hd => h1 (hd ▸ h)
      · rcases List.mem_cons.mp h with h | h
        · subst h; decide
        · rcases List.mem_cons.mp h with h | h
          · subst h; decide
          · rcases List.mem_cons.mp h with h | h
            · subst h; decide
            · exact fun hd => h2 (hd ▸ h)
    · have : c = '}' := List.mem_singleton.mp h
      subst this; decide
  have hlast : lastCloseIdx ((k1 ++ '}' :: '$' :: '{' :: k2) ++ ['}']) =
      some (k1 ++ '}' :: '$' :: '{' :: k2).length := by
    unfold lastCloseIdx
    have hlen : ((k1 ++ '}' :: '$' :: '{' :: k2) ++ ['}']).length =
        (k1 ++ '}' :: '$' :: '{' :: k2).length + 1 := by simp; omega
    rw [hlen]
    have hres := filter_range_getLast
      (fun i => decide (1 ≤ i ∧
        ((k1 ++ '}' :: '$' :: '{' :: k2) ++ ['}'])[i]? = some '}'))
      ((k1 ++ '}' :: '$' :: '{' :: k2).length + 1) (by omega) ?_
    · simpa using hres
    · simp only [Nat.add_sub_cancel, decide_eq_true_eq]
      refine ⟨by simp; omega, ?_⟩
      exact List.getElem?_concat_length _ _
  have hmatch : matchAt ('$' :: '{' :: ((k1 ++ ['}']) ++ placeholder k2)) =
      some ('$' :: '{' :: ((k1 ++ ['}']) ++ placeholder k2)) := by
    simp only [matchAt]
    rw [if_pos (by simp), ht, htw, hlast]
    show some ('$' :: '{' ::
      (List.take (k1 ++ '}' :: '$' :: '{' :: k2).length
        ((k1 ++ '}' :: '$' :: '{' :: k2) ++ ['}']) ++ ['}'])) = _
    rw [List.take_left]
  exact skFindString_of_matchAt '$' ('{' :: ((k1 ++ ['}']) ++ placeholder k2))
    _ hmatch

theorem Shaped.single (K : List (List Char)) (k : List Char) (hk : k ∈ K) :
    Shaped K (placeholder k) := by
  have h := Shaped.ph (K := K) k [] hk Shaped.nil
  simpa using h

theorem goodKeys_of_ball (K : List (List Char))
    (h : ∀ k ∈ K, '$' ∉ k ∧ '}' ∉ k) : GoodKeys K := h

theorem findReplaceU_fst (kvs : List (List Char × List Char))
    (u : List (List Char)) (s : List Char) :
    (findReplaceU kvs u s).1 = findReplaceCore kvs s := rfl

theorem findReplaceU_snd (kvs : List (List Char × List Char))
    (u : List (List Char)) (s : List Char) :
    (findReplaceU kvs u s).2 =
      if skFindString (findReplaceCore kvs s) = [] then u
      else addUnsub u (skFindString (findReplaceCore kvs s)) := rfl

/-- Claim C2, counterexample: on the two adjacent unresolved placeholders
of keys `a` and `b` the scan does not record the two matches separately —
the greedy regex takes the whole eight-character string as one match, and
that single string is what lands in the unsubstituted set. -/

theorem findString_greedy_cex :
    skFindString ['$', '{', 'a', '}', '$', '{', 'b', '}'] =
      ['$', '{', 'a', '}', '$', '{', 'b', '}'] ∧
    ¬ (['$', '{', 'a', '}'] ∈
        (findReplaceU [] [] ['$', '{', 'a', '}', '$', '{', 'b', '}']).2) := by
  decide

/-- Claim C2 (amended): the scan of `findReplace` is greedy, not
non-greedy, and `FindString` records at most one match per call: for any
two adjacent placeholders built from newline-free keys, the single
combined string spanning both is recorded in the unsubstituted set. -/

theorem findReplace_records_single_greedy_match (k1 k2 : List Char)
    (u0 : List (List Char)) (h1 : '\n' ∉ k1) (h2 : '\n' ∉ k2) :
    (findReplaceU [] u0 (placeholder k1 ++ placeholder k2)).2 =
      addUnsub u0 (placeholder k1 ++ placeholder k2) := by
  rw [findReplaceU_snd]
  have hcore : findReplaceCore [] (placeholder k1 ++ placeholder k2) =
      placeholder k1 ++ placeholder k2 := rfl
  rw [hcore, skFindString_adjacent k1 k2 h1 h2]
  rw [if_neg (by simp [placeholder])]

/-- Claim C2, witness for the amended theorem at keys `a` and `b`. -/

theorem findReplace_records_single_greedy_match_witness :
    ('\n' ∉ ['a']) ∧ ('\n' ∉ ['b']) ∧
    (findReplaceU [] [] (placeholder ['a'] ++ placeholder ['b'])).2 =
      addUnsub [] (placeholder ['a'] ++ placeholder ['b']) :=
  ⟨by decide, by decide,
    findReplace_records_single_greedy_match ['a'] ['b'] [] (by decide)
      (by decide)⟩

/-- Claim C3, counterexample: with the mapping sending key `a` to the
placeholder of key `b` and key `b` to `v`, the two iteration orders of the
same two entries produce different result strings on the input placeholder
of `a`, so the result is not independent of the iteration order and the
substituted value is re-scanned. -/

theorem findReplace_order_dependent_cex :
    (findReplaceU [(['a'], placeholder ['b']), (['b'], ['v'])] []
        (placeholder ['a'])).1 = ['v'] ∧
    (findReplaceU [(['b'], ['v']), (['a'], placeholder ['b'])] []
        (placeholder ['a'])).1 = placeholder ['b'] ∧
    (['v'] : List Char) ≠ placeholder ['b'] := by
  decide

/-- Claim C3 (amended): the replacement loop applies each entry to the
evolving string, so a value substituted in for one key is re-scanned by
the passes of the keys iterated after it.  With the mapping sending `a` to
the placeholder of `b` and `b` to an arbitrary `v`, the input placeholder
of `a` becomes `v` when `a` is iterated first and stays the placeholder of
`b` when `b` is iterated first: the result is a function of the iteration
order, not of the mapping alone. -/

theorem findReplace_rescans_values (v : List Char) :
    (findReplaceU [(['a'], placeholder ['b']), (['b'], v)] []
        (placeholder ['a'])).1 = v ∧
    (findReplaceU [(['b'], v), (['a'], placeholder ['b'])] []
        (placeholder ['a'])).1 = placeholder ['b'] := by
  have hbne : placeholder ['b'] ≠ [] := by simp [placeholder]
  have hane : placeholder ['a'] ≠ [] := by simp [placeholder]
  have hskip : replaceAll (placeholder ['b']) v (placeholder ['a']) =
      placeholder ['a'] := by
    have hpre : isPre (placeholder ['b']) ['$', '{', 'a', '}'] = false := by
      decide
    have h1 : replaceAll (placeholder ['b']) v ['$', '{', 'a', '}'] =
        '$' :: replaceAll (placeholder ['b']) v ['{', 'a', '}'] := by
      refine replaceAll_cons_neg _ _ _ _ ?_
      intro h
      have h2 : isPre (placeholder ['b']) ['$', '{', 'a', '}'] = true := h.2
      rw [hpre] at h2
      exact Bool.false_ne_true h2
    have h2 : replaceAll (placeholder ['b']) v ['{', 'a', '}'] =
        ['{', 'a', '}'] :=
      replaceAll_no_dollar ('{' :: (['b'] ++ ['}'])) v ['{', 'a', '}']
        (by decide)
    show replaceAll (placeholder ['b']) v ['$', '{', 'a', '}'] =
      ['$', '{', 'a', '}']
    rw [h1, h2]
  constructor
  · rw [findReplaceU_fst, findReplaceCore_cons, findReplaceCore_cons]
    show findReplaceCore []
      (replaceAll (placeholder ['b']) v
        (replaceAll (placeholder ['a']) (placeholder ['b'])
          (placeholder ['a']))) = v
    rw [replaceAll_self _ _ hane, replaceAll_self _ _ hbne]
    rfl
  · rw [findReplaceU_fst, findReplaceCore_cons, findReplaceCore_cons]
    show findReplaceCore []
      (replaceAll (placeholder ['a']) (placeholder ['b'])
        (replaceAll (placeholder ['b']) v (placeholder ['a']))) =
      placeholder ['b']
    rw [hskip, replaceAll_self _ _ hane]
    rfl

/-- Claim C4, counterexample: the mapping sends key `a` to a value that is
itself the placeholder of `x`; the input consists solely of the
placeholder of `a`, a key present in the mapping, yet the result still
contains a placeholder pattern and the unsubstituted set receives an
entry. -/

theorem findReplace_value_introduces_placeholder_cex :
    findReplaceU [(['a'], ['$', '{', 'x', '}'])] [] ['$', '{', 'a', '}'] =
      (['$', '{', 'x', '}'], [['$', '{', 'x', '}']]) := by
  decide

/-- Claim C4 (amended): if the keys of the mapping contain no dollar and no
close brace, every value of the mapping contains no dollar, and every
dollar of the input starts a placeholder of a mapped key, then the result
of `findReplace` contains no placeholder pattern (the regex scan finds
nothing) and the unsubstituted set is left unchanged. -/

theorem findReplace_no_pattern_of_shaped (kvs : List (List Char × List Char))
    (u0 : List (List Char)) (s : List Char)
    (hgood : GoodKeys (keysOf kvs))
    (hv : ∀ p ∈ kvs, ∀ c ∈ p.2, c ≠ '$')
    (hs : Shaped (keysOf kvs) s) :
    skFindString (findReplaceU kvs u0 s).1 = [] ∧
    (findReplaceU kvs u0 s).2 = u0 := by
  have hnd := findReplaceCore_no_dollar kvs s hgood hv hs
  have hf : skFindString (findReplaceCore kvs s) = [] :=
    skFindString_no_dollar _ hnd
  refine ⟨by rw [findReplaceU_fst]; exact hf, ?_⟩
  rw [findReplaceU_snd, if_pos hf]

/-- Claim C4, witness: mapping sending `a` to `x`, input the placeholder
of `a`. -/

theorem findReplace_no_pattern_of_shaped_witness :
    GoodKeys (keysOf [(['a'], ['x'])]) ∧
    (∀ p ∈ [(['a'], ['x'])], ∀ c ∈ p.2, c ≠ '$') ∧
    (skFindString (findReplaceU [(['a'], ['x'])] [] (placeholder ['a'])).1 =
        [] ∧
      (findReplaceU [(['a'], ['x'])] [] (placeholder ['a'])).2 = []) :=
  ⟨goodKeys_of_ball _ (by decide), by decide,
    findReplace_no_pattern_of_shaped [(['a'], ['x'])] [] (placeholder ['a'])
      (goodKeys_of_ball _ (by decide)) (by decide)
      (Shaped.single _ ['a'] (by decide))⟩

/-- Claim C7, counterexample: the single-entry mapping sends `k` to the
value of a `v` followed by a dollar — a value with no placeholder
syntax — and the input is the placeholder of `k` followed by an open
brace, `k` and a close brace.  One application yields `v` and a dollar and
then an unreduced placeholder of `k`; the second application rewrites that
placeholder, so applying `findReplace` twice differs from applying it
once. -/

theorem findReplace_not_idempotent_cex :
    (findReplaceU [(['k'], ['v', '$'])] []
        ((findReplaceU [(['k'], ['v', '$'])] []
          ['$', '{', 'k', '}', '{', 'k', '}']).1)).1 ≠
      (findReplaceU [(['k'], ['v', '$'])] []
        ['$', '{', 'k', '}', '{', 'k', '}']).1 := by
  decide

/-- Claim C7 (amended): under the same well-placed hypotheses as the
resolution theorem — keys free of dollars and close braces, values free of
dollars, every dollar of the input starting a mapped placeholder — the
first application leaves a string with no dollar at all, so the second
application of `findReplace` returns its input unchanged and substitution
is idempotent. -/

theorem findReplace_idem_of_shaped (kvs : List (List Char × List Char))
    (u0 u1 : List (List Char)) (s : List Char)
    (hgood : GoodKeys (keysOf kvs))
    (hv : ∀ p ∈ kvs, ∀ c ∈ p.2, c ≠ '$')
    (hs : Shaped (keysOf kvs) s) :
    (findReplaceU kvs u1 (findReplaceU kvs u0 s).1).1 =
      (findReplaceU kvs u0 s).1 := by
  simp only [findReplaceU_fst]
  exact findReplaceCore_of_no_dollar kvs _
    (findReplaceCore_no_dollar kvs s hgood hv hs)

/-- Claim C7, witness: mapping sending `a` to `x`, input the placeholder
of `a`. -/

theorem findReplace_idem_of_shaped_witness :
    GoodKeys (keysOf [(['a'], ['x'])]) ∧
    (∀ p ∈ [(['a'], ['x'])], ∀ c ∈ p.2, c ≠ '$') ∧
    (findReplaceU [(['a'], ['x'])] []
        (findReplaceU [(['a'], ['x'])] [] (placeholder ['a'])).1).1 =
      (findReplaceU [(['a'], ['x'])] [] (placeholder ['a'])).1 :=
  ⟨goodKeys_of_ball _ (by decide), by decide,
    findReplace_idem_of_shaped [(['a'], ['x'])] [] [] (placeholder ['a'])
      (goodKeys_of_ball _ (by decide)) (by decide)
      (Shaped.single _ ['a'] (by decide))⟩

theorem walkFuncM_some_spec (po : PathOps) (t : Skeleton) (verbose : Bool)
    (u0 : List (List Char)) (path : List Char) (b : Bool)
    (e : Option (List Char)) (rr : Except (List Char) (List Char))
    (mo co wo : Bool) :
    ∃ o, walkFuncM po t verbose u0 path (some b) e rr mo co wo = some o ∧
      o.ret = none ∧
      o.logsErr = (match b, rr with
        | false, Except.error m => [readFailMsg path m]
        | _, _ => []) ∧
      (t.dryrun = true → o.effects = []) := by
  cases b <;> rcases rr with m | content <;> cases hd : t.dryrun <;>
      cases hv : verbose <;>
    simp only [walkFuncM, hd, hv, Bool.not_true, Bool.not_false, if_true,
      if_false, ite_true, ite_false] <;>
    exact ⟨_, rfl, rfl, rfl, by simp⟩

theorem walkMAux_dry (po : PathOps) (t : Skeleton) (verbose : Bool)
    (hdry : t.dryrun = true) :
    ∀ (entries : List WEntry) (a : Accum),
      (∀ e ∈ entries, e.info.isSome = true) →
      (walkMAux po t verbose entries a).map (fun x => x.effects) =
        some a.effects := by
  intro entries
  induction entries with
  | nil => intro a _; simp [walkMAux]
  | cons e rest ih =>
    intro a hinfo
    obtain ⟨b, hb⟩ := Option.isSome_iff_exists.mp (hinfo e (by simp))
    obtain ⟨o, ho, hret, _, heff⟩ := walkFuncM_some_spec po t verbose a.unsub
      e.path b e.err e.readResult e.mkdirOk e.createOk e.writeOk
    simp only [walkMAux, hb, ho, hret]
    rw [ih (a.step e.path o) (fun x hx => hinfo x (by simp [hx]))]
    simp [Accum.step, heff hdry]

theorem walkMAux_spec (po : PathOps) (t : Skeleton) (verbose : Bool) :
    ∀ (entries : List WEntry) (a : Accum),
      (∀ e ∈ entries, e.info.isSome = true) →
      (walkMAux po t verbose entries a).map
          (fun x => (x.visited, x.logsErr)) =
        some (a.visited ++ entries.map WEntry.path,
              a.logsErr ++ readLogsOf entries) := by
  intro entries
  induction entries with
  | nil => intro a _; simp [walkMAux, readLogsOf]
  | cons e rest ih =>
    intro a hinfo
    obtain ⟨b, hb⟩ := Option.isSome_iff_exists.mp (hinfo e (by simp))
    obtain ⟨o, ho, hret, hlog, _⟩ := walkFuncM_some_spec po t verbose a.unsub
      e.path b e.err e.readResult e.mkdirOk e.createOk e.writeOk
    simp only [walkMAux, hb, ho, hret]
    rw [ih (a.step e.path o) (fun x hx => hinfo x (by simp [hx]))]
    refine congrArg some (Prod.ext ?_ ?_)
    · simp [Accum.step, List.append_assoc]
    · simp only [Accum.step]
      rw [hlog]
      cases b <;> rcases hrr : e.readResult with m | content <;>
        simp [readLogsOf, List.filterMap_cons, hb, hrr, List.append_assoc]

/-- Claim C5: when the dry-run flag of the skeleton is set, the whole walk
attempts no filesystem mutation at all — no directory creation, no file
creation, no file write — whatever the entries, the mapping, the output
directory and the path primitives are. -/

theorem walk_dryrun_no_mutation (po : PathOps) (t : Skeleton)
    (verbose : Bool) (entries : List WEntry) (hdry : t.dryrun = true)
    (hinfo : ∀ e ∈ entries, e.info.isSome = true) :
    (walkM po t verbose entries).map (fun x => x.effects) = some [] := by
  unfold walkM
  rw [walkMAux_dry po t verbose hdry entries Accum.start hinfo]
  rfl

/-- Claim C5, witness: a dry run over one directory entry and one file
entry attempts no mutation. -/

theorem walk_dryrun_no_mutation_witness :
    (⟨[], [], [], true, []⟩ : Skeleton).dryrun = true ∧
    (∀ e ∈ [(⟨['p'], some true, none, Except.ok [], true, true, true⟩ :
          WEntry),
        ⟨['q'], some false, none, Except.ok ['x'], true, true, true⟩],
      e.info.isSome = true) ∧
    (walkM plainOps ⟨[], [], [], true, []⟩ false
        [⟨['p'], some true, none, Except.ok [], true, true, true⟩,
         ⟨['q'], some false, none, Except.ok ['x'], true, true, true⟩]).map
      (fun x => x.effects) = some [] :=
  ⟨rfl, by decide,
    walk_dryrun_no_mutation plainOps ⟨[], [], [], true, []⟩ false
      [⟨['p'], some true, none, Except.ok [], true, true, true⟩,
       ⟨['q'], some false, none, Except.ok ['x'], true, true, true⟩]
      rfl (by decide)⟩

/-- Claim C6, counterexample: a directory entry in a non-dry run whose
`os.MkdirAll` fails.  The callback returns nil (the walk proceeds), yet
nothing is printed on standard output or standard error: the creation
failure is not logged. -/

theorem walkFunc_mkdir_failure_unlogged_cex :
    walkFuncM plainOps ⟨[], [], [], false, []⟩ false [] ['p'] (some true)
        none (Except.ok []) false true true =
      some ⟨[FsEffect.mkdirAll ['p'] false], [], [], [], [], none⟩ := by
  decide

/-- Claim C6 (amended): failures of the directory-creation, file-creation
and file-write calls neither halt the walk nor panic — the callback
discards those errors and returns nil, so every entry is visited whatever
the outcomes of those calls — but they are not logged either: the only
standard error output of the walk is the read-failure line of each file
entry whose read failed. -/

theorem walk_op_failures_silent (po : PathOps) (t : Skeleton)
    (verbose : Bool) (entries : List WEntry)
    (hinfo : ∀ e ∈ entries, e.info.isSome = true) :
    (walkM po t verbose entries).map (fun x => (x.visited, x.logsErr)) =
      some (entries.map WEntry.path, readLogsOf entries) := by
  unfold walkM
  rw [walkMAux_spec po t verbose entries Accum.start hinfo]
  rfl

/-- Claim C6, witness: two entries whose mkdir and write calls fail are
both visited and nothing beyond the read-failure line of the failing read
is logged. -/

theorem walk_op_failures_silent_witness :
    (∀ e ∈ [(⟨['p'], some true, none, Except.ok [], false, true, true⟩ :
          WEntry),
        ⟨['q'], some false, none, Except.error ['E'], true, false, false⟩],
      e.info.isSome = true) ∧
    (walkM plainOps ⟨[], [], [], false, []⟩ false
        [⟨['p'], some true, none, Except.ok [], false, true, true⟩,
         ⟨['q'], some false, none, Except.error ['E'], true, false, false⟩]).map
      (fun x => (x.visited, x.logsErr)) =
      some ([['p'], ['q']], [readFailMsg ['q'] ['E']]) :=
  ⟨by decide,
    walk_op_failures_silent plainOps ⟨[], [], [], false, []⟩ false
      [⟨['p'], some true, none, Except.ok [], false, true, true⟩,
       ⟨['q'], some false, none, Except.error ['E'], true, false, false⟩]
      (by decide)⟩

/-- Claim C8: in a non-dry run, a file entry whose read fails has already
had `os.Create` run on the substituted target path — the attempted
mutations are exactly the creation of the (empty) target file, no write
follows, the read failure is logged to standard error and the callback
returns nil so the walk proceeds. -/

theorem walkFunc_creates_target_before_read (po : PathOps) (t : Skeleton)
    (verbose : Bool) (u0 : List (List Char)) (path : List Char)
    (e : Option (List Char)) (msg : List Char) (mo co wo : Bool)
    (hdry : t.dryrun = false) :
    walkFuncM po t verbose u0 path (some false) e (Except.error msg)
        mo co wo =
      some { effects := [FsEffect.create (targetpathOf po t u0 path).1 co],
             reads := [path],
             logsOut := if verbose then
               [creatingFileMsg (targetpathOf po t u0 path).1] else [],
             logsErr := [readFailMsg path msg],
             unsub := (targetpathOf po t u0 path).2,
             ret := none } := by
  simp [walkFuncM, hdry]

/-- Claim C8, witness at a concrete skeleton and entry. -/

theorem walkFunc_creates_target_before_read_witness :
    (⟨[], [], [], false, []⟩ : Skeleton).dryrun = false ∧
    walkFuncM plainOps ⟨[], [], [], false, []⟩ false [] ['q'] (some false)
        none (Except.error ['E']) true true true =
      some { effects :=
               [FsEffect.create
                 (targetpathOf plainOps ⟨[], [], [], false, []⟩ [] ['q']).1
                 true],
             reads := [['q']],
             logsOut := if false then
               [creatingFileMsg
                 (targetpathOf plainOps ⟨[], [], [], false, []⟩ [] ['q']).1]
               else [],
             logsErr := [readFailMsg ['q'] ['E']],
             unsub := (targetpathOf plainOps ⟨[], [], [], false, []⟩ []
               ['q']).2,
             ret := none } :=
  ⟨rfl,
    walkFunc_creates_target_before_read plainOps ⟨[], [], [], false, []⟩
      false [] ['q'] none ['E'] true true true rfl⟩

/-- Claim C9: the walk callback never reads its error argument — the
result is literally the same function of the other arguments for any two
error values — and it branches on the file info before any nil check, so
an invocation with a nil `os.FileInfo` dereferences nil (modelled as the
`none` outcome), whatever the error argument says. -/

theorem walkFunc_ignores_err_nil_info_panics (po : PathOps) (t : Skeleton)
    (verbose : Bool) (u0 : List (List Char)) (path : List Char)
    (info : Option Bool) (e1 e2 : Option (List Char))
    (rr : Except (List Char) (List Char)) (mo co wo : Bool) :
    walkFuncM po t verbose u0 path info e1 rr mo co wo =
      walkFuncM po t verbose u0 path info e2 rr mo co wo ∧
    walkFuncM po t verbose u0 path none e1 rr mo co wo = none :=
  ⟨rfl, rfl⟩

/-- Claim C10: in a dry run a file entry is still read from disk (the read
of the source path happens whether or not the dry-run flag is set), but
the file content is never run through the substitutor: the resulting
unsubstituted set is exactly the one produced by substituting the target
path, independent of the content, and no mutation is attempted. -/

theorem walkFunc_dryrun_reads_skips_content (po : PathOps) (t : Skeleton)
    (verbose : Bool) (u0 : List (List Char)) (path : List Char)
    (e : Option (List Char)) (content : List Char) (mo co wo : Bool)
    (hdry : t.dryrun = true) :
    walkFuncM po t verbose u0 path (some false) e (Except.ok content)
        mo co wo =
      some { effects := [],
             reads := [path],
             logsOut := if verbose then
               [creatingFileMsg (targetpathOf po t u0 path).1] else [],
             logsErr := [],
             unsub := (targetpathOf po t u0 path).2,
             ret := none } := by
  simp [walkFuncM, hdry]

/-- Claim C10, witness: a dry-run file entry whose content is the
placeholder of `w` is read but contributes nothing to the unsubstituted
set. -/

theorem walkFunc_dryrun_reads_skips_content_witness :
    (⟨[], [], [], true, []⟩ : Skeleton).dryrun = true ∧
    walkFuncM plainOps ⟨[], [], [], true, []⟩ false [] ['q'] (some false)
        none (Except.ok (placeholder ['w'])) true true true =
      some { effects := [],
             reads := [['q']],
             logsOut := if false then
               [creatingFileMsg
                 (targetpathOf plainOps ⟨[], [], [], true, []⟩ [] ['q']).1]
               else [],
             logsErr := [],
             unsub := (targetpathOf plainOps ⟨[], [], [], true, []⟩ []
               ['q']).2,
             ret := none } :=
  ⟨rfl,
    walkFunc_dryrun_reads_skips_content plainOps ⟨[], [], [], true, []⟩
      false [] ['q'] none (placeholder ['w']) true true true rfl⟩

/-- Claim C1: the claim fails on the code — `cleanup` runs only at the
very end of `main` and only on the success path.  On the run whose input
is a zip archive that extracts successfully but whose `config.xml` cannot
be loaded, the process exits with status 1 while the scratch directory
created by `Unzip` is never removed. -/

theorem mainRun_scratch_leaked :
    mainRun ⟨['z'], true, true, false, true, true, true, false, true⟩ =
      ⟨1, true, false⟩ := by
  decide

end Skel


